import Mathlib

/- Verification of the mr-lisp interpreter (src/lexer.rs, src/parser.rs,
   src/eval.rs) via a shallow embedding.

   Modeling conventions, used consistently below:
   - Rust `i64` is modeled as `Int`; where the source parses an `i64` from
     text (and can fail on overflow), the model checks the `i64` range
     explicitly.
   - Rust `f64` is modeled as an exact rational (`Rat`).  The failure
     conditions of `str::parse::<f64>()` on the digit/dot strings reachable
     from the lexer (more than one dot) are mirrored exactly.
   - A Rust panic (out-of-bounds indexing, `unwrap` of a failed parse,
     `unimplemented!()`) is a distinct `abort` outcome, separate from the
     `Result::Err` channel which is modeled as `err`.
   - The `Rc<RefCell<Env>>` environment graph is modeled as a heap: a list
     of frames, each holding an optional parent index and local bindings.
     An environment handle is an index into that heap.
   - Recursion through the store (a lambda body fetched from the
     environment) is bounded by explicit fuel; running out of fuel is the
     distinct `noFuel` outcome. -/

namespace MrLisp

/-- Tokens produced by the lexer (`enum Token` in src/lexer.rs). -/
inductive Token where
  | integer (n : Int)
  | symbol (s : String)
  | lparen
  | rparen
  | float (q : Rat)
  | str (s : String)
  | binaryOp (s : String)
  | keyword (s : String)
  deriving DecidableEq

/-- The reserved keyword set of the tokenizer (src/lexer.rs). -/
def keywords : List String :=
  ["define", "list", "print", "lambda", "range", "cons", "car", "cdr",
   "length", "null?", "begin", "let", "if", "else", "cond"]

/-- The single-character binary operator set of the tokenizer (src/lexer.rs). -/
def binaryOpChars : List Char :=
  ['+', '-', '*', '/', '%', '<', '>', '=', '|', '&']

/-- `Tokenizer::eat_whitespace`: skip leading whitespace. -/
def eatWhitespace : List Char → List Char
  | [] => []
  | c :: rest => if c.isWhitespace then eatWhitespace rest else c :: rest

/-- `Tokenizer::read_symbol`: consume characters while they are neither
whitespace nor a parenthesis. -/
def readSymbolAux : List Char → List Char × List Char
  | [] => ([], [])
  | c :: rest =>
    if ¬c.isWhitespace ∧ c ≠ '(' ∧ c ≠ ')' then
      let (s, r) := readSymbolAux rest
      (c :: s, r)
    else ([], c :: rest)

/-- `Tokenizer::read_symbol`, packaging the consumed run as a string. -/
def readSymbol (cs : List Char) : String × List Char :=
  let (s, r) := readSymbolAux cs
  (String.mk s, r)

/-- `Tokenizer::read_number`: consume characters while they are a decimal
digit or a dot. -/
def readNumberAux : List Char → List Char × List Char
  | [] => ([], [])
  | c :: rest =>
    if c.isDigit ∨ c = '.' then
      let (s, r) := readNumberAux rest
      (c :: s, r)
    else ([], c :: rest)

/-- `Tokenizer::read_number`, packaging the consumed run as a string. -/
def readNumber (cs : List Char) : String × List Char :=
  let (s, r) := readNumberAux cs
  (String.mk s, r)

/-- `Tokenizer::read_string`: the opening quote is already consumed by the
caller in this model; copy characters verbatim up to the next quote, then
skip the closing quote (silently stopping at end of input). -/
def readStringAux : List Char → List Char × List Char
  | [] => ([], [])
  | c :: rest =>
    if c = '"' then ([], rest)
    else
      let (s, r) := readStringAux rest
      (c :: s, r)

/-- Numeric value of a digit run (the value `str::parse` computes). -/
def natOfDigits (cs : List Char) : Nat :=
  cs.foldl (fun acc c => 10 * acc + (c.toNat - 48)) 0

/-- Largest `i64` value. -/
def i64Max : Int := 9223372036854775807

/-- `str::parse::<i64>()` on a run of digits/dots: succeeds exactly on a
nonempty all-digit run whose value fits in `i64`. -/
def parseI64 (s : String) : Option Int :=
  let cs := s.data
  if cs ≠ [] ∧ cs.all Char.isDigit ∧ (natOfDigits cs : Int) ≤ i64Max then
    some ((natOfDigits cs : Int))
  else none

/-- `str::parse::<f64>()` on a run of digits/dots, with the `f64` value
modeled as an exact rational: succeeds exactly on a run containing at
least one digit and at most one dot. -/
def parseF64 (s : String) : Option Rat :=
  let cs := s.data
  if cs.all (fun c => c.isDigit || c == '.') ∧ cs.count '.' ≤ 1 ∧
      cs.any Char.isDigit then
    let ip := cs.takeWhile (· ≠ '.')
    let fp := (cs.dropWhile (· ≠ '.')).drop 1
    some (mkRat ((natOfDigits ip : Int) * (Nat.pow 10 fp.length : Int) +
      (natOfDigits fp : Int)) (Nat.pow 10 fp.length))
  else none

/-- Outcome of one `Tokenizer::next_token` step: end of tokenization
(end of input or an unrecognized character), a token plus the remaining
input, or a panic from `unwrap` on a failed numeric parse. -/
inductive TokStep where
  | stop
  | tok (t : Token) (rest : List Char)
  | abort (m : String)

/-- `Tokenizer::next_token` (src/lexer.rs): skip whitespace, then dispatch
on the current character, in the source's guard order. -/
def nextToken (cs : List Char) : TokStep :=
  match eatWhitespace cs with
  | [] => .stop
  | c :: rest =>
    if c = '(' then .tok .lparen rest
    else if c = ')' then .tok .rparen rest
    else if c = '"' then
      let (s, r) := readStringAux rest
      .tok (.str (String.mk s)) r
    else if c.isDigit then
      let (num, r) := readNumber (c :: rest)
      if num.data.contains '.' then
        match parseF64 num with
        | some q => .tok (.float q) r
        | none => .abort "invalid float literal"
      else
        match parseI64 num with
        | some n => .tok (.integer n) r
        | none => .abort "invalid integer literal"
    else if binaryOpChars.contains c then .tok (.binaryOp (String.mk [c])) rest
    else if c.isAlpha ∨ c = '_' then
      let (sym, r) := readSymbol (c :: rest)
      if keywords.contains sym then .tok (.keyword sym) r
      else .tok (.symbol sym) r
    else .stop

/-- Result of running the whole tokenizer: the token list, or a panic. -/
inductive TRes where
  | ok (ts : List Token)
  | abort (m : String)

/-- The `tokenize` loop, with fuel (each produced token consumes at least
one character, so `input.length + 1` fuel always suffices). -/
def tokenizeF : Nat → List Char → TRes
  | 0, _ => .abort "out of fuel"
  | f + 1, cs =>
    match nextToken cs with
    | .stop => .ok []
    | .abort m => .abort m
    | .tok t rest =>
      match tokenizeF f rest with
      | .ok ts => .ok (t :: ts)
      | r => r

/-- `tokenize` (src/lexer.rs): run the tokenizer over a source string. -/
def tokenizeProgram (s : String) : TRes :=
  tokenizeF (s.length + 1) s.data

/-- `enum Object` (src/parser.rs): the closed tagged union used both as an
AST node and as a runtime value. -/
inductive Object where
  | void
  | keyword (s : String)
  | binaryOp (s : String)
  | integer (n : Int)
  | float (q : Rat)
  | bool (b : Bool)
  | str (s : String)
  | symbol (s : String)
  | listData (l : List Object)
  | lambda (params : List String) (body : List Object)
  | list (l : List Object)

/-- Result of `parse_list` (src/parser.rs): the parsed list together with
the tokens remaining after its closing parenthesis, a `ParseError`, or
fuel exhaustion (an artifact of the embedding; the canonical fuel below is
always sufficient). -/
inductive PRes where
  | ok (o : Object) (rest : List Token)
  | err (m : String)
  | noFuel

/-- The item loop of `parse_list` (src/parser.rs): pop tokens and push the
corresponding objects until the closing parenthesis.  The source handles a
nested list by pushing the `(` back and recursing into `parse_list`, whose
leading-`(` check then necessarily succeeds; that round trip is inlined
here as a direct recursive call on the tokens after the `(`. -/
def parseItems : Nat → List Token → List Object → PRes
  | 0, _, _ => .noFuel
  | f + 1, ts, acc =>
    match ts with
    | [] => .err "Expected closing paren at the end of list"
    | t :: rest =>
      match t with
      | .integer n => parseItems f rest (acc ++ [.integer n])
      | .float q => parseItems f rest (acc ++ [.float q])
      | .str s => parseItems f rest (acc ++ [.str s])
      | .symbol s => parseItems f rest (acc ++ [.symbol s])
      | .lparen =>
        match parseItems f rest [] with
        | .ok sub rest₁ => parseItems f rest₁ (acc ++ [sub])
        | r => r
      | .rparen => .ok (.list acc) rest
      | .binaryOp op => parseItems f rest (acc ++ [.binaryOp op])
      | .keyword kw => parseItems f rest (acc ++ [.keyword kw])

/-- `parse_list` (src/parser.rs): the first token must be `(`, then the
item loop runs. -/
def parseListT (f : Nat) (ts : List Token) : PRes :=
  match ts with
  | .lparen :: rest => parseItems f rest []
  | _ => .err "Expected opening paren at the beginning of list"

/-- `parse_list` at its canonical fuel (always sufficient, proven below). -/
def parseTokens (ts : List Token) : PRes :=
  parseListT (ts.length + 1) ts

/-- Result of `parse` (src/parser.rs) on a source string: object, parse
error, or a tokenizer panic. -/
inductive PPRes where
  | ok (o : Object)
  | err (m : String)
  | abort (m : String)

/-- `parse` (src/parser.rs): tokenize, then parse one list from the front
of the token stream; any tokens remaining after it are discarded. -/
def parseProgram (s : String) : PPRes :=
  match tokenizeProgram s with
  | .abort m => .abort m
  | .ok ts =>
    match parseTokens ts with
    | .ok o _ => .ok o
    | .err m => .err m
    | .noFuel => .abort "out of fuel"

/-- One scope (`struct Env` in src/eval.rs): an optional parent link and
the local bindings.  `HashMap<String, Object>` is modeled as an
association list whose insert prepends and whose lookup takes the first
match — extensionally the same `get`/`set` behavior. -/
structure Frame where
  parent : Option Nat
  vars : List (String × Object)

/-- The environment graph: `Rc<RefCell<Env>>` aliasing is modeled as a
heap of frames addressed by index; `Env::extend` appends a frame whose
parent is the index it chains under. -/
abbrev Heap := List Frame

/-- Lookup in one frame's local bindings (`HashMap::get`). -/
def varsGet : List (String × Object) → String → Option Object
  | [], _ => none
  | (k, v) :: rest, n => if k = n then some v else varsGet rest n

/-- `Env::get`: look up locally first, else delegate to the parent chain.
The chain is chased with step bound `idx + 1`, which always suffices
because `Env::extend` only ever chains a new frame under an existing one,
so parent indices strictly decrease along any chain. -/
def envGetAux (h : Heap) : Nat → Nat → String → Option Object
  | 0, _, _ => none
  | fuel + 1, idx, name =>
    match h[idx]? with
    | none => none
    | some fr =>
      match varsGet fr.vars name with
      | some v => some v
      | none =>
        match fr.parent with
        | none => none
        | some p => envGetAux h fuel p name

/-- `Env::get` from the frame at index `idx`. -/
def envGet (h : Heap) (idx : Nat) (name : String) : Option Object :=
  envGetAux h (idx + 1) idx name

/-- `Env::set`: insert or overwrite a binding in the local scope only. -/
def envSet (h : Heap) (idx : Nat) (name : String) (v : Object) : Heap :=
  match h[idx]? with
  | none => h
  | some fr => h.set idx ⟨fr.parent, (name, v) :: fr.vars⟩

/-- Local-bindings lookup at a frame, without chasing parents (used to
state what an environment "contains" after evaluation). -/
def frameLookup (h : Heap) (idx : Nat) (name : String) : Option Object :=
  match h[idx]? with
  | none => none
  | some fr => varsGet fr.vars name

/-- The parent link of the frame at index `i`, if the frame exists. -/
def parentAt (h : Heap) (i : Nat) : Option (Option Nat) :=
  (h[i]?).map Frame.parent

/-- The root environment (`Env::new()` in main.rs): one parentless frame. -/
def initHeap : Heap := [⟨none, []⟩]

/-- Outcome of evaluation: an object (`Ok`), an error message (`Err`), a
Rust panic, or fuel exhaustion (embedding artifact). -/
inductive Res where
  | ok (o : Object)
  | err (m : String)
  | abort (m : String)
  | noFuel

/-- The evaluation function type: object, current environment handle, and
heap in; outcome and (possibly mutated) heap out. -/
abbrev Eval := Object → Nat → Heap → Res × Heap

/-- `eval_symbol` (src/eval.rs): resolve via the environment chain. -/
def evalSymbol (name : String) (env : Nat) (h : Heap) : Res × Heap :=
  match envGet h env name with
  | some v => (.ok v, h)
  | none => (.err ("Undefined symbol: " ++ name), h)

/-- `eval_list_data` (src/eval.rs): `unimplemented!()`, a panic. -/
def evalListData (_l : List Object) (_env : Nat) (h : Heap) : Res × Heap :=
  (.abort "unimplemented", h)

/-- The loop of `eval_begin`: evaluate items in order in the same
environment, keeping the last result (`Void` initially). -/
def evalSeqFromG (ev : Eval) (cur : Object) : List Object → Nat → Heap → Res × Heap
  | [], _, h => (.ok cur, h)
  | e :: rest, env, h =>
    match ev e env h with
    | (.ok v, h₁) => evalSeqFromG ev v rest env h₁
    | r => r

/-- `eval_begin` (src/eval.rs). -/
def evalBeginG (ev : Eval) (l : List Object) (env : Nat) (h : Heap) : Res × Heap :=
  evalSeqFromG ev .void (l.drop 1) env h

/-- `eval_define` (src/eval.rs): `list[1]` must be a Symbol (indexing out
of bounds is a panic), `list[2]` is evaluated (again indexed, so a panic
when absent), the result is bound in the current environment, `Void` is
returned. -/
def evalDefineG (ev : Eval) (l : List Object) (env : Nat) (h : Heap) : Res × Heap :=
  match l[1]? with
  | none => (.abort "index out of bounds", h)
  | some (Object.symbol s) =>
    match l[2]? with
    | none => (.abort "index out of bounds", h)
    | some ve =>
      match ev ve env h with
      | (.ok v, h₁) => (.ok .void, envSet h₁ env s v)
      | r => r
  | some _ => (.err "Invalid define syntax", h)

/-- `eval_if` (src/eval.rs): `list[1]`, `list[2]`, `list[3]` are indexed
(panic when absent); the condition must evaluate to a Bool, and only the
selected branch is evaluated. -/
def evalIfG (ev : Eval) (l : List Object) (env : Nat) (h : Heap) : Res × Heap :=
  match l[1]? with
  | none => (.abort "index out of bounds", h)
  | some condE =>
    match ev condE env h with
    | (.ok condV, h₁) =>
      match condV with
      | .bool b =>
        if b then
          match l[2]? with
          | none => (.abort "index out of bounds", h₁)
          | some t => ev t env h₁
        else
          match l[3]? with
          | none => (.abort "index out of bounds", h₁)
          | some e => ev e env h₁
      | _ => (.err "Condition must be a boolean", h₁)
    | r => r

/-- The parameter scan of `eval_function_definition`: every element of the
parameter list must be a Symbol. -/
def symbolNames : List Object → Except String (List String)
  | [] => .ok []
  | .symbol s :: rest => (symbolNames rest).map (s :: ·)
  | _ :: _ => .error "Invalid lamdba parameter"

/-- `eval_function_definition` (src/eval.rs): `list[1]` must be a List of
Symbols, `list[2]` a List (the body); both are indexed (panic when
absent).  The environment parameter is unused (`_env` in the source): the
Lambda captures nothing. -/
def evalFunctionDefinition (l : List Object) (_env : Nat) (h : Heap) : Res × Heap :=
  match l[1]? with
  | none => (.abort "index out of bounds", h)
  | some (Object.list params) =>
    match symbolNames params with
    | .error m => (.err m, h)
    | .ok ps =>
      match l[2]? with
      | none => (.abort "index out of bounds", h)
      | some (Object.list body) => (.ok (.lambda ps body), h)
      | some _ => (.err "Invalid lambda body", h)
  | some _ => (.err "Invalid lambda parameters", h)

/-- Result of the argument-binding loop of `eval_function_call`. -/
inductive BindRes where
  | ok (h : Heap)
  | fail (r : Res) (h : Heap)

/-- The argument-binding loop of `eval_function_call`: for the i-th formal
parameter, `list[i + 1]` is indexed (panic when absent), evaluated in the
caller's environment, and bound in the callee frame. -/
def bindParamsG (ev : Eval) (l : List Object) (env funcEnv : Nat) :
    List String → Nat → Heap → BindRes
  | [], _, h => .ok h
  | p :: ps, i, h =>
    match l[i + 1]? with
    | none => .fail (.abort "index out of bounds") h
    | some argE =>
      match ev argE env h with
      | (.ok v, h₁) => bindParamsG ev l env funcEnv ps (i + 1) (envSet h₁ funcEnv p v)
      | (r, h₁) => .fail r h₁

/-- `eval_function_call` (src/eval.rs): the symbol must resolve to a
Lambda; a fresh frame is appended whose parent is the *calling*
environment; arguments bind in order; the body (rewrapped as a List)
evaluates in the new frame. -/
def evalFunctionCallG (ev : Eval) (name : String) (l : List Object) (env : Nat)
    (h : Heap) : Res × Heap :=
  match envGet h env name with
  | none => (.err ("Undefined function: " ++ name), h)
  | some (Object.lambda params body) =>
    let funcEnv := h.length
    let h₁ := h ++ [⟨some env, []⟩]
    match bindParamsG ev l env funcEnv params 0 h₁ with
    | .ok h₂ => ev (.list body) funcEnv h₂
    | .fail r h₂ => (r, h₂)
  | some _ => (.err (name ++ " is not a function"), h)

/-- The per-operator, per-operand-type dispatch of `eval_binary_op`
(src/eval.rs), applied to the two fully evaluated operands.  Mixed
Integer/Float operands promote to Float; integer division truncates
toward zero (`i64` division); division by an exact zero is an `Err`. -/
def applyBinary (op left right : Object) : Res :=
  match op with
  | .binaryOp s =>
    if s = "+" then
      match left, right with
      | .integer a, .integer b => .ok (.integer (a + b))
      | .float a, .float b => .ok (.float (a + b))
      | .integer a, .float b => .ok (.float ((a : Rat) + b))
      | .float a, .integer b => .ok (.float (a + (b : Rat)))
      | _, _ => .err "Invalid operands for +"
    else if s = "-" then
      match left, right with
      | .integer a, .integer b => .ok (.integer (a - b))
      | .float a, .float b => .ok (.float (a - b))
      | .integer a, .float b => .ok (.float ((a : Rat) - b))
      | .float a, .integer b => .ok (.float (a - (b : Rat)))
      | _, _ => .err "Invalid operands for -"
    else if s = "*" then
      match left, right with
      | .integer a, .integer b => .ok (.integer (a * b))
      | .float a, .float b => .ok (.float (a * b))
      | .integer a, .float b => .ok (.float ((a : Rat) * b))
      | .float a, .integer b => .ok (.float (a * (b : Rat)))
      | _, _ => .err "Invalid operands for *"
    else if s = "/" then
      match left, right with
      | .integer a, .integer b =>
        if b = 0 then .err "Division by zero" else .ok (.integer (a.tdiv b))
      | .float a, .float b =>
        if b = 0 then .err "Division by zero" else .ok (.float (a / b))
      | .integer a, .float b =>
        if b = 0 then .err "Division by zero" else .ok (.float ((a : Rat) / b))
      | .float a, .integer b =>
        if b = 0 then .err "Division by zero" else .ok (.float (a / (b : Rat)))
      | _, _ => .err "Invalid operands for /"
    else if s = "<" then
      match left, right with
      | .integer a, .integer b => .ok (.bool (a < b))
      | .float a, .float b => .ok (.bool (a < b))
      | .integer a, .float b => .ok (.bool ((a : Rat) < b))
      | .float a, .integer b => .ok (.bool (a < (b : Rat)))
      | _, _ => .err "Invalid operands for <"
    else if s = ">" then
      match left, right with
      | .integer a, .integer b => .ok (.bool (a > b))
      | .float a, .float b => .ok (.bool (a > b))
      | .integer a, .float b => .ok (.bool ((a : Rat) > b))
      | .float a, .integer b => .ok (.bool (a > (b : Rat)))
      | _, _ => .err "Invalid operands for >"
    else .err ("Unsupported binary operator: " ++ s)
  | _ => .err "Invalid binary operation"

/-- `eval_binary_op` (src/eval.rs): exactly three elements required; both
operands are fully evaluated (left first) before the operator dispatch. -/
def evalBinaryOpG (ev : Eval) (l : List Object) (env : Nat) (h : Heap) : Res × Heap :=
  match l with
  | [op, a1, a2] =>
    match ev a1 env h with
    | (.ok left, h₁) =>
      match ev a2 env h₁ with
      | (.ok right, h₂) => (applyBinary op left right, h₂)
      | r => r
    | r => r
  | _ => (.err "Invalid binary operation", h)

/-- `eval_keyword` (src/eval.rs): dispatch on the keyword's text; only
begin/define/if/lambda are supported. -/
def evalKeywordG (ev : Eval) (l : List Object) (env : Nat) (h : Heap) : Res × Heap :=
  match l[0]? with
  | none => (.err "Empty keyword list", h)
  | some (Object.keyword kw) =>
    if kw = "begin" then evalBeginG ev l env h
    else if kw = "define" then evalDefineG ev l env h
    else if kw = "if" then evalIfG ev l env h
    else if kw = "lambda" then evalFunctionDefinition l env h
    else (.err ("Unsupported keyword: " ++ kw), h)
  | some _ => (.err "Expected keyword", h)

/-- `eval_list` (src/eval.rs): dispatch on the head of the list. -/
def evalListG (ev : Eval) (l : List Object) (env : Nat) (h : Heap) : Res × Heap :=
  match l.head? with
  | none => (.err "Empty list", h)
  | some hd =>
    match hd with
    | .keyword _ => evalKeywordG ev l env h
    | .binaryOp _ => evalBinaryOpG ev l env h
    | .symbol s => evalFunctionCallG ev s l env h
    | _ => (.err "Invalid list op", h)

/-- One dispatch step of `eval_obj` (src/eval.rs): atoms self-evaluate, a
bare Lambda evaluates to `Void` (the source's placeholder), a bare
Keyword or BinaryOp falls to the catch-all `Err`. -/
def evalStep (ev : Eval) : Eval := fun obj env h =>
  match obj with
  | .void => (.ok .void, h)
  | .bool b => (.ok (.bool b), h)
  | .integer n => (.ok (.integer n), h)
  | .float q => (.ok (.float q), h)
  | .listData l => evalListData l env h
  | .str s => (.ok (.str s), h)
  | .symbol s => evalSymbol s env h
  | .lambda _ _ => (.ok .void, h)
  | .list l => evalListG ev l env h
  | .keyword _ => (.err "Invalid object", h)
  | .binaryOp _ => (.err "Invalid object", h)

/-- `eval_obj` (src/eval.rs), with fuel bounding the recursion depth. -/
def evalObj : Nat → Eval
  | 0 => fun _ _ h => (.noFuel, h)
  | f + 1 => evalStep (evalObj f)

/-- `eval_begin` at a given fuel. -/
def evalBegin (f : Nat) : List Object → Nat → Heap → Res × Heap :=
  evalBeginG (evalObj f)

/-- `eval_define` at a given fuel. -/
def evalDefine (f : Nat) : List Object → Nat → Heap → Res × Heap :=
  evalDefineG (evalObj f)

/-- `eval_if` at a given fuel. -/
def evalIf (f : Nat) : List Object → Nat → Heap → Res × Heap :=
  evalIfG (evalObj f)

/-- `eval_binary_op` at a given fuel. -/
def evalBinaryOp (f : Nat) : List Object → Nat → Heap → Res × Heap :=
  evalBinaryOpG (evalObj f)

/-- `eval_function_call` at a given fuel. -/
def evalFunctionCall (f : Nat) (name : String) : List Object → Nat → Heap → Res × Heap :=
  evalFunctionCallG (evalObj f) name

/-- `eval` (src/eval.rs): parse the program string, then evaluate the
resulting AST against the given environment. -/
def evalProgram (s : String) (fuel : Nat) (env : Nat) (h : Heap) : Res × Heap :=
  match parseProgram s with
  | .abort m => (.abort m, h)
  | .err m => (.err ("ParseError: " ++ m), h)
  | .ok ast => evalObj fuel ast env h

/-- Whether a tokenizer outcome is a produced token list. -/
def TRes.isOk : TRes → Bool
  | .ok _ => true
  | _ => false

/-- Whether an evaluation outcome is an `Err` result (the `Result::Err`
channel of the source). -/
def Res.isErr : Res → Bool
  | .err _ => true
  | _ => false

/-- Whether an evaluation outcome is an `Ok` value. -/
def Res.isOk : Res → Bool
  | .ok _ => true
  | _ => false

/-- The heap carried by an argument-binding outcome. -/
def BindRes.heap : BindRes → Heap
  | .ok h => h
  | .fail _ h => h

/-- Heap evolution invariant: evaluation may append frames and rebind
variables, but never deletes a frame and never changes the parent link of
an existing frame. -/
def HeapExt (h h' : Heap) : Prop :=
  h.length ≤ h'.length ∧ ∀ i, i < h.length → parentAt h' i = parentAt h i

/- ------------------------------------------------------------------ -/
/- Parser lemmas: fuel adequacy and prefix behavior of `parse_list`.  -/
/- ------------------------------------------------------------------ -/

/-- A successful `parse_list` item loop consumes at least one token (the
closing parenthesis). -/
theorem parseItems_consumes :
    ∀ f ts acc o rest, parseItems f ts acc = .ok o rest →
      rest.length < ts.length := by
  intro f
  induction f with
  | zero => intro ts acc o rest h; simp [parseItems] at h
  | succ f ih =>
    intro ts acc o rest h
    match ts with
    | [] => simp [parseItems] at h
    | t :: ts' =>
      cases t with
      | integer n =>
        simp only [parseItems] at h
        exact Nat.lt_succ_of_lt (ih _ _ _ _ h)
      | float q =>
        simp only [parseItems] at h
        exact Nat.lt_succ_of_lt (ih _ _ _ _ h)
      | str s =>
        simp only [parseItems] at h
        exact Nat.lt_succ_of_lt (ih _ _ _ _ h)
      | symbol s =>
        simp only [parseItems] at h
        exact Nat.lt_succ_of_lt (ih _ _ _ _ h)
      | binaryOp op =>
        simp only [parseItems] at h
        exact Nat.lt_succ_of_lt (ih _ _ _ _ h)
      | keyword kw =>
        simp only [parseItems] at h
        exact Nat.lt_succ_of_lt (ih _ _ _ _ h)
      | rparen =>
        simp only [parseItems, PRes.ok.injEq] at h
        simp [← h.2]
      | lparen =>
        simp only [parseItems] at h
        cases hsub : parseItems f ts' [] with
        | ok sub rest₁ =>
          rw [hsub] at h
          have h₁ := ih _ _ _ _ hsub
          have h₂ := ih _ _ _ _ h
          simp only [List.length_cons]
          omega
        | err m => rw [hsub] at h; cases h
        | noFuel => rw [hsub] at h; cases h

/-- Fuel `ts.length + 1` is always enough for the item loop. -/
theorem parseItems_noFuel :
    ∀ f ts acc, ts.length < f → parseItems f ts acc ≠ .noFuel := by
  intro f
  induction f with
  | zero => intro ts acc h; omega
  | succ f ih =>
    intro ts acc h
    match ts with
    | [] => simp [parseItems]
    | t :: ts' =>
      have hlen : ts'.length < f := by simp at h; omega
      cases t with
      | integer n => simpa only [parseItems] using ih _ _ hlen
      | float q => simpa only [parseItems] using ih _ _ hlen
      | str s => simpa only [parseItems] using ih _ _ hlen
      | symbol s => simpa only [parseItems] using ih _ _ hlen
      | binaryOp op => simpa only [parseItems] using ih _ _ hlen
      | keyword kw => simpa only [parseItems] using ih _ _ hlen
      | rparen => simp [parseItems]
      | lparen =>
        simp only [parseItems]
        cases hsub : parseItems f ts' [] with
        | ok sub rest₁ =>
          have : rest₁.length < f :=
            Nat.lt_trans (parseItems_consumes f ts' [] sub rest₁ hsub) hlen
          exact ih _ _ this
        | err m => simp
        | noFuel => exact absurd hsub (ih _ _ hlen)

/-- Spending more fuel does not change a run of the item loop that did
not run out of fuel. -/
theorem parseItems_mono :
    ∀ f g ts acc, f ≤ g → parseItems f ts acc ≠ .noFuel →
      parseItems g ts acc = parseItems f ts acc := by
  intro f
  induction f with
  | zero => intro g ts acc _ hnf; simp [parseItems] at hnf
  | succ f ih =>
    intro g ts acc hle hnf
    obtain ⟨g', rfl⟩ : ∃ g', g = g' + 1 := ⟨g - 1, by omega⟩
    have hle' : f ≤ g' := by omega
    match ts with
    | [] => simp [parseItems]
    | t :: ts' =>
      cases t with
      | integer n => exact ih g' _ _ hle' (by simpa only [parseItems] using hnf)
      | float q => exact ih g' _ _ hle' (by simpa only [parseItems] using hnf)
      | str s => exact ih g' _ _ hle' (by simpa only [parseItems] using hnf)
      | symbol s => exact ih g' _ _ hle' (by simpa only [parseItems] using hnf)
      | binaryOp op => exact ih g' _ _ hle' (by simpa only [parseItems] using hnf)
      | keyword kw => exact ih g' _ _ hle' (by simpa only [parseItems] using hnf)
      | rparen => simp [parseItems]
      | lparen =>
        simp only [parseItems] at hnf ⊢
        cases hsub : parseItems f ts' [] with
        | ok sub rest₁ =>
          rw [hsub] at hnf
          rw [ih g' ts' [] hle' (by rw [hsub]; simp), hsub]
          exact ih g' rest₁ _ hle' hnf
        | err m => rw [ih g' ts' [] hle' (by rw [hsub]; simp), hsub]
        | noFuel => rw [hsub] at hnf; simp at hnf

/-- Tokens appended after the part the item loop consumes are passed
through untouched: the loop reads the same prefix and leaves the suffix. -/
theorem parseItems_append :
    ∀ f ts acc o rest ex, parseItems f ts acc = .ok o rest →
      parseItems f (ts ++ ex) acc = .ok o (rest ++ ex) := by
  intro f
  induction f with
  | zero => intro ts acc o rest ex h; simp [parseItems] at h
  | succ f ih =>
    intro ts acc o rest ex h
    match ts with
    | [] => simp [parseItems] at h
    | t :: ts' =>
      cases t with
      | integer n => simp only [parseItems, List.cons_append] at h ⊢; exact ih _ _ _ _ _ h
      | float q => simp only [parseItems, List.cons_append] at h ⊢; exact ih _ _ _ _ _ h
      | str s => simp only [parseItems, List.cons_append] at h ⊢; exact ih _ _ _ _ _ h
      | symbol s => simp only [parseItems, List.cons_append] at h ⊢; exact ih _ _ _ _ _ h
      | binaryOp op => simp only [parseItems, List.cons_append] at h ⊢; exact ih _ _ _ _ _ h
      | keyword kw => simp only [parseItems, List.cons_append] at h ⊢; exact ih _ _ _ _ _ h
      | rparen =>
        simp only [parseItems, PRes.ok.injEq] at h
        simp [parseItems, h.1, h.2]
      | lparen =>
        simp only [parseItems, List.cons_append] at h ⊢
        cases hsub : parseItems f ts' [] with
        | ok sub rest₁ =>
          rw [hsub] at h
          rw [ih _ _ _ _ ex hsub]
          exact ih _ _ _ _ _ h
        | err m => rw [hsub] at h; cases h
        | noFuel => rw [hsub] at h; cases h

/-- If the token stream contains no `)` at all, the item loop always ends
with the unterminated-list error. -/
theorem parseItems_noRParen :
    ∀ f ts acc, Token.rparen ∉ ts → ts.length < f →
      parseItems f ts acc = .err "Expected closing paren at the end of list" := by
  intro f
  induction f with
  | zero => intro ts acc _ h; omega
  | succ f ih =>
    intro ts acc hmem hlen
    match ts with
    | [] => simp [parseItems]
    | t :: ts' =>
      have hmem' : Token.rparen ∉ ts' := fun hc => hmem (List.mem_cons_of_mem _ hc)
      have hlen' : ts'.length < f := by simp at hlen; omega
      cases t with
      | integer n => simp only [parseItems]; exact ih _ _ hmem' hlen'
      | float q => simp only [parseItems]; exact ih _ _ hmem' hlen'
      | str s => simp only [parseItems]; exact ih _ _ hmem' hlen'
      | symbol s => simp only [parseItems]; exact ih _ _ hmem' hlen'
      | binaryOp op => simp only [parseItems]; exact ih _ _ hmem' hlen'
      | keyword kw => simp only [parseItems]; exact ih _ _ hmem' hlen'
      | rparen => exact absurd (List.mem_cons_self _ _) hmem
      | lparen =>
        simp only [parseItems]
        rw [ih _ _ hmem' hlen']

/-- C7: parse fails — with an error, never a partial tree — when the token
stream does not begin with `(`, and when end of input is reached before
the opened list's matching `)` (shown generally for streams containing no
`)` at all); in particular parse("(+ 1 2") and parse("+ 1 2)") both
fail. -/
theorem c7_parse_failures :
    (∀ f ts, ts.head? ≠ some Token.lparen →
      parseListT f ts = .err "Expected opening paren at the beginning of list") ∧
    (∀ ts, Token.rparen ∉ ts → ∃ m, parseTokens ts = .err m) ∧
    parseProgram "(+ 1 2" = .err "Expected closing paren at the end of list" ∧
    parseProgram "+ 1 2)" = .err "Expected opening paren at the beginning of list" := by
  refine ⟨?_, ?_, rfl, rfl⟩
  · intro f ts hh
    cases ts with
    | nil => rfl
    | cons t ts' => cases t <;> first | rfl | exact absurd rfl hh
  · intro ts hmem
    cases ts with
    | nil => exact ⟨_, rfl⟩
    | cons t ts' =>
      cases t with
      | lparen =>
        refine ⟨"Expected closing paren at the end of list", ?_⟩
        have h1 : Token.rparen ∉ ts' := fun hc => hmem (List.mem_cons_of_mem _ hc)
        have h2 := parseItems_noRParen ((Token.lparen :: ts').length + 1) ts' [] h1
          (by simp; omega)
        simpa [parseTokens, parseListT] using h2
      | rparen => exact absurd (List.mem_cons_self _ _) hmem
      | integer n => exact ⟨_, rfl⟩
      | float q => exact ⟨_, rfl⟩
      | str s => exact ⟨_, rfl⟩
      | symbol s => exact ⟨_, rfl⟩
      | binaryOp op => exact ⟨_, rfl⟩
      | keyword kw => exact ⟨_, rfl⟩

/-- Closed instance of `c7_parse_failures`: a stream beginning with an
integer token is rejected. -/
theorem c7_parse_failures_witness :
    parseListT 3 [Token.integer 7] =
      .err "Expected opening paren at the beginning of list" :=
  c7_parse_failures.1 3 [Token.integer 7] (by decide)

/-- C9: parse returns the first complete balanced list and silently
discards every token after its closing `)`: appending any token suffix to
an accepted stream leaves the parsed object unchanged, and trailing
sibling forms after the first top-level list never cause a parse error
(shown concretely on "(+ 1 2) 3 4"). -/
theorem c9_parse_discards_trailing :
    (∀ ts ex o rest, parseTokens ts = .ok o rest →
      parseTokens (ts ++ ex) = .ok o (rest ++ ex)) ∧
    parseProgram "(+ 1 2) 3 4" =
      .ok (.list [.binaryOp "+", .integer 1, .integer 2]) ∧
    parseProgram "(+ 1 2) 3 4" = parseProgram "(+ 1 2)" := by
  refine ⟨?_, rfl, rfl⟩
  intro ts ex o rest h
  cases ts with
  | nil => simp [parseTokens, parseListT] at h
  | cons t ts' =>
    cases t with
    | lparen =>
      have h' : parseItems (ts'.length + 1 + 1) ts' [] = .ok o rest := by
        simpa [parseTokens, parseListT] using h
      have happ := parseItems_append _ _ _ _ _ ex h'
      have hmono := parseItems_mono (ts'.length + 1 + 1)
        ((ts' ++ ex).length + 1 + 1) (ts' ++ ex) [] (by simp)
        (by rw [happ]; simp)
      rw [happ] at hmono
      simp only [parseTokens, parseListT, List.cons_append, List.length_cons]
      exact hmono
    | rparen => simp [parseTokens, parseListT] at h
    | integer n => simp [parseTokens, parseListT] at h
    | float q => simp [parseTokens, parseListT] at h
    | str s => simp [parseTokens, parseListT] at h
    | symbol s => simp [parseTokens, parseListT] at h
    | binaryOp op => simp [parseTokens, parseListT] at h
    | keyword kw => simp [parseTokens, parseListT] at h

/-- Closed instance of `c9_parse_discards_trailing`: an integer token
after `()` is discarded. -/
theorem c9_parse_discards_trailing_witness :
    parseTokens ([Token.lparen, Token.rparen] ++ [Token.integer 3]) =
      .ok (.list []) ([] ++ [Token.integer 3]) :=
  c9_parse_discards_trailing.1 [Token.lparen, Token.rparen] [Token.integer 3]
    (.list []) [] rfl

/- ------------------------------------------------------------------ -/
/- Lexer lemmas: behavior of `next_token` on a digit-initiated run.   -/
/- ------------------------------------------------------------------ -/

/-- A decimal digit is not whitespace. -/
theorem isDigit_not_isWhitespace {c : Char} (h : c.isDigit = true) :
    c.isWhitespace = false := by
  by_contra hc
  rw [Bool.not_eq_false] at hc
  simp [Char.isWhitespace] at hc
  rcases hc with ((rfl | rfl) | rfl) | rfl <;> exact absurd h (by decide)

/-- The character list underlying `String.mk`. -/
theorem stringDataMk (l : List Char) : (String.mk l).data = l := rfl

/-- `read_number` consumes exactly a maximal run of digits/dots. -/
theorem readNumberAux_run :
    ∀ run rest : List Char, (∀ x ∈ run, x.isDigit = true ∨ x = '.') →
      (∀ x, rest.head? = some x → ¬(x.isDigit = true ∨ x = '.')) →
      readNumberAux (run ++ rest) = (run, rest) := by
  intro run
  induction run with
  | nil =>
    intro rest _ hrest
    cases rest with
    | nil => rfl
    | cons x r' =>
      simp only [List.nil_append, readNumberAux, if_neg (hrest x rfl)]
  | cons d run' ih =>
    intro rest hrun hrest
    have hd : d.isDigit = true ∨ d = '.' := hrun d (List.mem_cons_self _ _)
    have hrun' : ∀ x ∈ run', x.isDigit = true ∨ x = '.' :=
      fun x hx => hrun x (List.mem_cons_of_mem _ hx)
    simp [readNumberAux, if_pos hd, ih rest hrun' hrest]

/-- On a list of digits/dots containing a digit and at most one dot,
the modeled `f64` parse succeeds. -/
theorem parseF64_some (l : List Char)
    (h1 : ∀ x ∈ l, x.isDigit = true ∨ x = '.')
    (h2 : l.count '.' ≤ 1) (h3 : ∃ x ∈ l, x.isDigit = true) :
    ∃ q, parseF64 (String.mk l) = some q := by
  have hcond : (l.all (fun c => c.isDigit || c == '.') = true) ∧
      l.count '.' ≤ 1 ∧ (l.any Char.isDigit = true) := by
    refine ⟨?_, h2, ?_⟩
    · rw [List.all_eq_true]
      intro x hx
      rcases h1 x hx with h | h <;> simp [h]
    · rw [List.any_eq_true]
      obtain ⟨x, hx, hdig⟩ := h3
      exact ⟨x, hx, hdig⟩
  simp only [parseF64, stringDataMk]
  rw [if_pos hcond]
  exact ⟨_, rfl⟩

/-- With two or more dots the modeled `f64` parse fails. -/
theorem parseF64_none (l : List Char) (h2 : 2 ≤ l.count '.') :
    parseF64 (String.mk l) = none := by
  simp only [parseF64, stringDataMk]
  rw [if_neg]
  rintro ⟨-, hle, -⟩
  omega

/-- On a nonempty all-digit list whose value fits in `i64`, the modeled
`i64` parse succeeds. -/
theorem parseI64_some (l : List Char) (h0 : l ≠ [])
    (h1 : ∀ x ∈ l, x.isDigit = true)
    (h2 : (natOfDigits l : Int) ≤ i64Max) :
    parseI64 (String.mk l) = some ((natOfDigits l : Int)) := by
  have hcond : l ≠ [] ∧ (l.all Char.isDigit = true) ∧
      (natOfDigits l : Int) ≤ i64Max := by
    refine ⟨h0, ?_, h2⟩
    rw [List.all_eq_true]
    exact h1
  simp only [parseI64, stringDataMk]
  rw [if_pos hcond]

/-- On an overflowing all-digit list the modeled `i64` parse fails. -/
theorem parseI64_none (l : List Char) (h2 : i64Max < (natOfDigits l : Int)) :
    parseI64 (String.mk l) = none := by
  simp only [parseI64, stringDataMk]
  rw [if_neg]
  rintro ⟨-, -, hle⟩
  omega

/-- C8 (amended): for a digit-initiated maximal run of digits and dots,
`next_token` yields a Float token when the run contains exactly one dot;
it yields an Integer token when it contains no dot *and* its value fits
in `i64`; a no-dot run whose value exceeds `i64::MAX`, like any run with
more than one dot, makes number parsing fail hard — the `unwrap` in the
tokenizer panics, so no token at all is produced. -/
theorem c8_number_tokens :
    ∀ (c : Char) (run rest : List Char),
      c.isDigit = true →
      (∀ x ∈ c :: run, x.isDigit = true ∨ x = '.') →
      (∀ x, rest.head? = some x → ¬(x.isDigit = true ∨ x = '.')) →
      (((c :: run).count '.' = 1 →
        ∃ q, nextToken (c :: run ++ rest) = .tok (.float q) rest) ∧
      ((c :: run).count '.' = 0 → (natOfDigits (c :: run) : Int) ≤ i64Max →
        nextToken (c :: run ++ rest) =
          .tok (.integer ((natOfDigits (c :: run) : Int))) rest) ∧
      ((c :: run).count '.' = 0 → i64Max < (natOfDigits (c :: run) : Int) →
        nextToken (c :: run ++ rest) = .abort "invalid integer literal") ∧
      (2 ≤ (c :: run).count '.' →
        nextToken (c :: run ++ rest) = .abort "invalid float literal")) := by
  intro c run rest hc hrun hrest
  have hne1 : c ≠ '(' := by rintro rfl; exact absurd hc (by decide)
  have hne2 : c ≠ ')' := by rintro rfl; exact absurd hc (by decide)
  have hne3 : c ≠ '"' := by rintro rfl; exact absurd hc (by decide)
  have hws : eatWhitespace (c :: (run ++ rest)) = c :: (run ++ rest) := by
    simp only [eatWhitespace, isDigit_not_isWhitespace hc, Bool.false_eq_true,
      if_false]
  have hread : readNumber (c :: (run ++ rest)) = (String.mk (c :: run), rest) := by
    have h := readNumberAux_run (c :: run) rest hrun hrest
    simp only [List.cons_append] at h
    simp only [readNumber, List.cons_append, h]
  refine ⟨?_, ?_, ?_, ?_⟩
  · intro hdots
    have hcont : (c :: run).contains '.' = true :=
      List.elem_iff.mpr (List.count_pos_iff.mp (by omega))
    obtain ⟨q, hq⟩ := parseF64_some (c :: run) hrun (le_of_eq hdots)
      ⟨c, List.mem_cons_self _ _, hc⟩
    refine ⟨q, ?_⟩
    simp only [List.cons_append, nextToken, hws, if_neg hne1, if_neg hne2,
      if_neg hne3, hc, if_true, hread, stringDataMk, hcont, hq]
  · intro hdots hfit
    have hnomem : '.' ∉ c :: run := List.count_eq_zero.mp hdots
    have hcont : (c :: run).contains '.' = false := by
      rw [Bool.eq_false_iff]
      exact fun hcc => hnomem (List.elem_iff.mp hcc)
    have hall : ∀ x ∈ c :: run, x.isDigit = true := by
      intro x hx
      rcases hrun x hx with h | rfl
      · exact h
      · exact absurd hx hnomem
    have hi := parseI64_some (c :: run) (by simp) hall hfit
    simp only [List.cons_append, nextToken, hws, if_neg hne1, if_neg hne2,
      if_neg hne3, hc, if_true, hread, stringDataMk, hcont, hi,
      Bool.false_eq_true, if_false]
  · intro hdots hover
    have hnomem : '.' ∉ c :: run := List.count_eq_zero.mp hdots
    have hcont : (c :: run).contains '.' = false := by
      rw [Bool.eq_false_iff]
      exact fun hcc => hnomem (List.elem_iff.mp hcc)
    have hi := parseI64_none (c :: run) hover
    simp only [List.cons_append, nextToken, hws, if_neg hne1, if_neg hne2,
      if_neg hne3, hc, if_true, hread, stringDataMk, hcont, hi,
      Bool.false_eq_true, if_false]
  · intro hdots
    have hcont : (c :: run).contains '.' = true :=
      List.elem_iff.mpr (List.count_pos_iff.mp (by omega))
    have hf := parseF64_none (c :: run) hdots
    simp only [List.cons_append, nextToken, hws, if_neg hne1, if_neg hne2,
      if_neg hne3, hc, if_true, hread, stringDataMk, hcont, hf]

/-- Closed instance of `c8_number_tokens`: the run "1.5" lexes to a Float
token. -/
theorem c8_number_tokens_witness :
    ∃ q, nextToken ('1' :: ['.', '5'] ++ []) = .tok (.float q) [] :=
  (c8_number_tokens '1' ['.', '5'] [] (by decide) (by decide)
    (fun x hx => by simp at hx)).1 (by decide)

/-- C8 counterexample: "9999999999999999999" (nineteen nines) is a
digit-initiated dot-free run, so the claim requires an Integer token; its
value exceeds i64::MAX, the `unwrap` in the tokenizer panics, and no token
list is produced at all. -/
theorem c8_counterexample :
    tokenizeProgram "9999999999999999999" = .abort "invalid integer literal" ∧
    (tokenizeProgram "9999999999999999999").isOk = false :=
  ⟨rfl, rfl⟩

/- ------------------------------------------------------------------ -/
/- Evaluator lemmas: the heap-evolution invariant.                    -/
/- ------------------------------------------------------------------ -/

/-- `HeapExt` is reflexive. -/
theorem heapExt_refl (h : Heap) : HeapExt h h :=
  ⟨le_refl _, fun _ _ => rfl⟩

/-- `HeapExt` is transitive. -/
theorem heapExt_trans {h₁ h₂ h₃ : Heap} (a : HeapExt h₁ h₂) (b : HeapExt h₂ h₃) :
    HeapExt h₁ h₃ :=
  ⟨le_trans a.1 b.1, fun i hi => (b.2 i (lt_of_lt_of_le hi a.1)).trans (a.2 i hi)⟩

/-- Appending frames preserves existing frames and their parents. -/
theorem heapExt_append (h : Heap) (l : List Frame) : HeapExt h (h ++ l) := by
  refine ⟨by simp, fun i hi => ?_⟩
  simp [parentAt, List.getElem?_append_left hi]

/-- `Env::set` rebinds a variable but keeps every parent link. -/
theorem heapExt_envSet (h : Heap) (idx : Nat) (n : String) (v : Object) :
    HeapExt h (envSet h idx n v) := by
  unfold envSet
  cases hfr : h[idx]? with
  | none => exact heapExt_refl h
  | some fr =>
    refine ⟨by simp, fun i hi => ?_⟩
    by_cases hij : idx = i
    · subst hij
      have hlt : idx < h.length := by
        by_contra hc
        rw [List.getElem?_eq_none (by omega)] at hfr
        cases hfr
      simp [parentAt, List.getElem?_set_self hlt, hfr]
    · simp [parentAt, List.getElem?_set_ne hij]

/-- The `begin` sequencing loop only evolves the heap. -/
theorem seq_heapExt {ev : Eval} (ih : ∀ o env h, HeapExt h (ev o env h).2) :
    ∀ l cur env h, HeapExt h (evalSeqFromG ev cur l env h).2 := by
  intro l
  induction l with
  | nil => intro cur env h; exact heapExt_refl h
  | cons e rest ihl =>
    intro cur env h
    have hx := ih e env h
    simp only [evalSeqFromG]
    rcases hev : ev e env h with ⟨r, h₁⟩
    rw [hev] at hx
    cases r with
    | ok v => exact heapExt_trans hx (ihl v env h₁)
    | err m => exact hx
    | abort m => exact hx
    | noFuel => exact hx

/-- The argument-binding loop only evolves the heap. -/
theorem bind_heapExt {ev : Eval} (ih : ∀ o env h, HeapExt h (ev o env h).2)
    (l : List Object) (env funcEnv : Nat) :
    ∀ ps i h, HeapExt h (bindParamsG ev l env funcEnv ps i h).heap := by
  intro ps
  induction ps with
  | nil => intro i h; exact heapExt_refl h
  | cons p ps' ihp =>
    intro i h
    simp only [bindParamsG]
    cases hl : l[i + 1]? with
    | none => exact heapExt_refl h
    | some argE =>
      dsimp only
      have hx := ih argE env h
      rcases hev : ev argE env h with ⟨r, h₁⟩
      rw [hev] at hx
      cases r with
      | ok v =>
        exact heapExt_trans hx (heapExt_trans (heapExt_envSet h₁ funcEnv p v)
          (ihp (i + 1) _))
      | err m => exact hx
      | abort m => exact hx
      | noFuel => exact hx

/-- `eval_define` only evolves the heap. -/
theorem define_heapExt {ev : Eval} (ih : ∀ o env h, HeapExt h (ev o env h).2) :
    ∀ l env h, HeapExt h (evalDefineG ev l env h).2 := by
  intro l env h
  simp only [evalDefineG]
  cases l[1]? with
  | none => exact heapExt_refl h
  | some o =>
    cases o with
    | symbol s =>
      dsimp only
      cases l[2]? with
      | none => exact heapExt_refl h
      | some ve =>
        dsimp only
        have hx := ih ve env h
        rcases hev : ev ve env h with ⟨r, h₁⟩
        rw [hev] at hx
        cases r with
        | ok v => exact heapExt_trans hx (heapExt_envSet h₁ env s v)
        | err m => exact hx
        | abort m => exact hx
        | noFuel => exact hx
    | void => exact heapExt_refl h
    | keyword s => exact heapExt_refl h
    | binaryOp s => exact heapExt_refl h
    | integer n => exact heapExt_refl h
    | float q => exact heapExt_refl h
    | bool b => exact heapExt_refl h
    | str s => exact heapExt_refl h
    | listData ld => exact heapExt_refl h
    | lambda ps b => exact heapExt_refl h
    | list ll => exact heapExt_refl h

/-- `eval_if` only evolves the heap. -/
theorem if_heapExt {ev : Eval} (ih : ∀ o env h, HeapExt h (ev o env h).2) :
    ∀ l env h, HeapExt h (evalIfG ev l env h).2 := by
  intro l env h
  simp only [evalIfG]
  cases l[1]? with
  | none => exact heapExt_refl h
  | some condE =>
    dsimp only
    have hx := ih condE env h
    rcases hev : ev condE env h with ⟨r, h₁⟩
    rw [hev] at hx
    cases r with
    | ok condV =>
      cases condV with
      | bool b =>
        cases b with
        | true =>
          cases l[2]? with
          | none => exact hx
          | some t => exact heapExt_trans hx (ih t env h₁)
        | false =>
          cases l[3]? with
          | none => exact hx
          | some e => exact heapExt_trans hx (ih e env h₁)
      | void => exact hx
      | keyword s => exact hx
      | binaryOp s => exact hx
      | integer n => exact hx
      | float q => exact hx
      | str s => exact hx
      | symbol s => exact hx
      | listData ld => exact hx
      | lambda ps bd => exact hx
      | list ll => exact hx
    | err m => exact hx
    | abort m => exact hx
    | noFuel => exact hx

/-- `eval_binary_op` only evolves the heap. -/
theorem binop_heapExt {ev : Eval} (ih : ∀ o env h, HeapExt h (ev o env h).2) :
    ∀ l env h, HeapExt h (evalBinaryOpG ev l env h).2 := by
  intro l env h
  match l with
  | [] => exact heapExt_refl h
  | [_] => exact heapExt_refl h
  | [_, _] => exact heapExt_refl h
  | op :: a1 :: a2 :: _ :: _ => exact heapExt_refl h
  | [op, a1, a2] =>
    simp only [evalBinaryOpG]
    have hx := ih a1 env h
    rcases hev : ev a1 env h with ⟨r, h₁⟩
    rw [hev] at hx
    cases r with
    | ok left =>
      dsimp only
      have hy := ih a2 env h₁
      rcases hev2 : ev a2 env h₁ with ⟨r2, h₂⟩
      rw [hev2] at hy
      cases r2 with
      | ok right => exact heapExt_trans hx hy
      | err m => exact heapExt_trans hx hy
      | abort m => exact heapExt_trans hx hy
      | noFuel => exact heapExt_trans hx hy
    | err m => exact hx
    | abort m => exact hx
    | noFuel => exact hx

/-- `eval_function_definition` leaves the heap unchanged. -/
theorem fndef_heap : ∀ l env h, (evalFunctionDefinition l env h).2 = h := by
  intro l env h
  simp only [evalFunctionDefinition]
  cases l[1]? with
  | none => rfl
  | some o =>
    cases o with
    | list params =>
      dsimp only
      cases symbolNames params with
      | error m => rfl
      | ok ps =>
        dsimp only
        cases l[2]? with
        | none => rfl
        | some o2 => cases o2 <;> rfl
    | void => rfl
    | keyword s => rfl
    | binaryOp s => rfl
    | integer n => rfl
    | float q => rfl
    | bool b => rfl
    | str s => rfl
    | symbol s => rfl
    | listData ld => rfl
    | lambda ps b => rfl

/-- `eval_function_call` only evolves the heap. -/
theorem fncall_heapExt {ev : Eval} (ih : ∀ o env h, HeapExt h (ev o env h).2) :
    ∀ name l env h, HeapExt h (evalFunctionCallG ev name l env h).2 := by
  intro name l env h
  simp only [evalFunctionCallG]
  cases envGet h env name with
  | none => exact heapExt_refl h
  | some v =>
    cases v with
    | lambda params body =>
      dsimp only
      have hb := bind_heapExt ih l env h.length params 0 (h ++ [⟨some env, []⟩])
      have happ : HeapExt h (h ++ [(⟨some env, []⟩ : Frame)]) := heapExt_append h _
      cases hbind : bindParamsG ev l env h.length params 0 (h ++ [⟨some env, []⟩]) with
      | ok h₂ =>
        rw [hbind] at hb
        exact heapExt_trans happ (heapExt_trans hb (ih (.list body) h.length h₂))
      | fail r h₂ =>
        rw [hbind] at hb
        exact heapExt_trans happ hb
    | void => exact heapExt_refl h
    | keyword s => exact heapExt_refl h
    | binaryOp s => exact heapExt_refl h
    | integer n => exact heapExt_refl h
    | float q => exact heapExt_refl h
    | bool b => exact heapExt_refl h
    | str s => exact heapExt_refl h
    | symbol s => exact heapExt_refl h
    | listData ld => exact heapExt_refl h
    | list ll => exact heapExt_refl h

/-- `eval_keyword` only evolves the heap. -/
theorem keyword_heapExt {ev : Eval} (ih : ∀ o env h, HeapExt h (ev o env h).2) :
    ∀ l env h, HeapExt h (evalKeywordG ev l env h).2 := by
  intro l env h
  simp only [evalKeywordG]
  cases l[0]? with
  | none => exact heapExt_refl h
  | some o =>
    cases o with
    | keyword kw =>
      dsimp only
      by_cases h1 : kw = "begin"
      · rw [if_pos h1]
        exact seq_heapExt ih _ _ _ _
      rw [if_neg h1]
      by_cases h2 : kw = "define"
      · rw [if_pos h2]
        exact define_heapExt ih _ _ _
      rw [if_neg h2]
      by_cases h3 : kw = "if"
      · rw [if_pos h3]
        exact if_heapExt ih _ _ _
      rw [if_neg h3]
      by_cases h4 : kw = "lambda"
      · rw [if_pos h4]
        exact ⟨le_of_eq (congrArg _ (fndef_heap l env h)).symm, fun i hi => by
          rw [fndef_heap l env h]⟩
      rw [if_neg h4]
      exact heapExt_refl h
    | void => exact heapExt_refl h
    | binaryOp s => exact heapExt_refl h
    | integer n => exact heapExt_refl h
    | float q => exact heapExt_refl h
    | bool b => exact heapExt_refl h
    | str s => exact heapExt_refl h
    | symbol s => exact heapExt_refl h
    | listData ld => exact heapExt_refl h
    | lambda ps b => exact heapExt_refl h
    | list ll => exact heapExt_refl h

/-- `eval_list` only evolves the heap. -/
theorem list_heapExt {ev : Eval} (ih : ∀ o env h, HeapExt h (ev o env h).2) :
    ∀ l env h, HeapExt h (evalListG ev l env h).2 := by
  intro l env h
  simp only [evalListG]
  cases l.head? with
  | none => exact heapExt_refl h
  | some hd =>
    cases hd with
    | keyword s => exact keyword_heapExt ih _ _ _
    | binaryOp s => exact binop_heapExt ih _ _ _
    | symbol s => exact fncall_heapExt ih _ _ _ _
    | void => exact heapExt_refl h
    | integer n => exact heapExt_refl h
    | float q => exact heapExt_refl h
    | bool b => exact heapExt_refl h
    | str s => exact heapExt_refl h
    | listData ld => exact heapExt_refl h
    | lambda ps b => exact heapExt_refl h
    | list ll => exact heapExt_refl h

/-- One evaluation step only evolves the heap. -/
theorem evalStep_heapExt {ev : Eval} (ih : ∀ o env h, HeapExt h (ev o env h).2) :
    ∀ o env h, HeapExt h (evalStep ev o env h).2 := by
  intro o env h
  cases o with
  | void => exact heapExt_refl h
  | bool b => exact heapExt_refl h
  | integer n => exact heapExt_refl h
  | float q => exact heapExt_refl h
  | str s => exact heapExt_refl h
  | lambda ps b => exact heapExt_refl h
  | keyword s => exact heapExt_refl h
  | binaryOp s => exact heapExt_refl h
  | listData l => exact heapExt_refl h
  | symbol s =>
    simp only [evalStep, evalSymbol]
    cases envGet h env s with
    | some v => exact heapExt_refl h
    | none => exact heapExt_refl h
  | list l => exact list_heapExt ih l env h

/-- `eval_obj` only evolves the heap: no frame is dropped and no parent
link of an existing frame ever changes. -/
theorem evalObj_heapExt : ∀ f o env h, HeapExt h (evalObj f o env h).2 := by
  intro f
  induction f with
  | zero => intro o env h; exact heapExt_refl h
  | succ f ih => exact evalStep_heapExt ih

/-- C1: for every call of a user-defined function (a List headed by a
Symbol bound to a Lambda), the new call frame's parent is the environment
active at the call site, and that link persists to the end of the call;
a `lambda` form builds its Lambda value from the form alone — independent
of the environment and heap at its creation, so no definition-site
environment is captured; consequently a free variable in a lambda body
resolves through the caller's chain (dynamic scoping): in the closing
example `f`'s free `y` finds the binding made by calling `g`, giving 11,
which lexical closures would reject as undefined. -/
theorem c1_dynamic_scoping :
    (∀ f name (l : List Object) env h params body,
      envGet h env name = some (.lambda params body) →
      ∃ r h', evalFunctionCall f name l env h = (r, h') ∧
        parentAt h' h.length = some (some env)) ∧
    (∀ (l : List Object) env env' hp hp',
      (evalFunctionDefinition l env hp).1 =
        (evalFunctionDefinition l env' hp').1 ∧
      (evalFunctionDefinition l env hp).2 = hp) ∧
    (evalProgram "(begin (define f (lambda (a) (+ a y))) (define g (lambda (y) (f 1))) (g 10))"
        100 0 initHeap).1 = .ok (.integer 11) := by
  refine ⟨?_, ?_, rfl⟩
  · intro f name l env h params body hget
    simp only [evalFunctionCall, evalFunctionCallG, hget]
    have hp1 : parentAt (h ++ [(⟨some env, []⟩ : Frame)]) h.length =
        some (some env) := by
      simp [parentAt, List.getElem?_append_right (le_refl h.length)]
    have hb := bind_heapExt (fun o e hh => evalObj_heapExt f o e hh) l env
      h.length params 0 (h ++ [⟨some env, []⟩])
    cases hbind : bindParamsG (evalObj f) l env h.length params 0
        (h ++ [⟨some env, []⟩]) with
    | ok h₂ =>
      rw [hbind] at hb
      dsimp only [BindRes.heap] at hb
      dsimp only
      have hlen2 : h.length < h₂.length := by
        have := hb.1
        simp at this
        omega
      have hbody := evalObj_heapExt f (.list body) h.length h₂
      rcases hev : evalObj f (.list body) h.length h₂ with ⟨r, h'⟩
      rw [hev] at hbody
      refine ⟨r, h', rfl, ?_⟩
      rw [hbody.2 h.length hlen2, hb.2 h.length (by simp), hp1]
    | fail r h₂ =>
      rw [hbind] at hb
      dsimp only [BindRes.heap] at hb
      dsimp only
      refine ⟨r, h₂, rfl, ?_⟩
      rw [hb.2 h.length (by simp), hp1]
  · intro l env env' hp hp'
    refine ⟨?_, fndef_heap l env hp⟩
    simp only [evalFunctionDefinition]
    cases l[1]? with
    | none => rfl
    | some o =>
      cases o with
      | list params =>
        dsimp only
        cases symbolNames params with
        | error m => rfl
        | ok ps =>
          dsimp only
          cases l[2]? with
          | none => rfl
          | some o2 => cases o2 <;> rfl
      | void => rfl
      | keyword s => rfl
      | binaryOp s => rfl
      | integer n => rfl
      | float q => rfl
      | bool b => rfl
      | str s => rfl
      | symbol s => rfl
      | listData ld => rfl
      | lambda ps b => rfl

/-- Closed instance of `c1_dynamic_scoping`: calling `g` bound in the root
frame creates a call frame whose parent link is the root frame. -/
theorem c1_dynamic_scoping_witness :
    ∃ r h', evalFunctionCall 5 "g" [Object.symbol "g", Object.integer 10] 0
        [⟨none, [("g", Object.lambda ["y"] [Object.integer 1])]⟩] = (r, h') ∧
      parentAt h' 1 = some (some 0) :=
  c1_dynamic_scoping.1 5 "g" [Object.symbol "g", Object.integer 10] 0
    [⟨none, [("g", Object.lambda ["y"] [Object.integer 1])]⟩]
    ["y"] [Object.integer 1] rfl

/-- When the remaining formal parameters outrun the call form, the
argument-binding loop reaches a missing `list[i + 1]` and never completes
normally. -/
theorem bindParams_short {ev : Eval} (l : List Object) (env funcEnv : Nat) :
    ∀ ps, ps ≠ [] → ∀ i h, l.length < i + 1 + ps.length →
      ∀ h', bindParamsG ev l env funcEnv ps i h ≠ .ok h' := by
  intro ps
  induction ps with
  | nil => intro hne; exact absurd rfl hne
  | cons p ps' ihp =>
    intro _ i h hlen h'
    simp only [bindParamsG]
    cases hl : l[i + 1]? with
    | none =>
      dsimp only
      exact fun hc => BindRes.noConfusion hc
    | some argE =>
      dsimp only
      have hi : i + 1 < l.length := by
        by_contra hc
        rw [List.getElem?_eq_none (by omega)] at hl
        cases hl
      cases ps' with
      | nil =>
        simp only [List.length_cons, List.length_nil] at hlen
        omega
      | cons p2 ps'' =>
        rcases hev : ev argE env h with ⟨r, h₁⟩
        cases r with
        | ok v =>
          exact ihp (by simp) (i + 1) _
            (by simp only [List.length_cons] at hlen ⊢; omega) h'
        | err m => exact fun hc => BindRes.noConfusion hc
        | abort m => exact fun hc => BindRes.noConfusion hc
        | noFuel => exact fun hc => BindRes.noConfusion hc

/-- A failing argument-binding loop never carries an `Ok` outcome: the
failure is the panic or the propagated evaluation failure. -/
theorem bindParams_fail_not_ok {ev : Eval} (l : List Object) (env funcEnv : Nat) :
    ∀ ps i h r h', bindParamsG ev l env funcEnv ps i h = .fail r h' →
      ∀ v, r ≠ .ok v := by
  intro ps
  induction ps with
  | nil =>
    intro i h r h' hc
    cases hc
  | cons p ps' ihp =>
    intro i h r h' hfail
    simp only [bindParamsG] at hfail
    cases hl : l[i + 1]? with
    | none =>
      rw [hl] at hfail
      dsimp only at hfail
      cases hfail
      intro v hc
      cases hc
    | some argE =>
      rw [hl] at hfail
      dsimp only at hfail
      rcases hev : ev argE env h with ⟨r0, h₁⟩
      rw [hev] at hfail
      cases r0 with
      | ok v => exact ihp (i + 1) _ r h' hfail
      | err m =>
        cases hfail
        intro v hc
        cases hc
      | abort m =>
        cases hfail
        intro v hc
        cases hc
      | noFuel =>
        cases hfail
        intro v hc
        cases hc

/-- C2 (amended): a call of a Lambda with fewer actual argument
expressions than formal parameters never produces a value: either an
argument's evaluation fails and that failure propagates, or the binding
loop reaches the first missing `list[i + 1]` and aborts via out-of-bounds
indexing (a panic) — there is no arity `Err` result.  A call supplying no
arguments to a function with parameters aborts immediately. -/
theorem c2_arity_panic :
    (∀ f name (l : List Object) env h params body,
      envGet h env name = some (.lambda params body) →
      1 ≤ l.length → l.length ≤ params.length →
      ∀ v h', evalFunctionCall f name l env h ≠ (.ok v, h')) ∧
    (∀ f name (l : List Object) env h p ps body,
      envGet h env name = some (.lambda (p :: ps) body) →
      l.length ≤ 1 →
      evalFunctionCall f name l env h =
        (.abort "index out of bounds", h ++ [⟨some env, []⟩])) := by
  constructor
  · intro f name l env h params body hget h1 h2 v h'
    have hne : params ≠ [] := by
      intro hc
      rw [hc] at h2
      simp only [List.length_nil] at h2
      omega
    simp only [evalFunctionCall, evalFunctionCallG, hget]
    cases hbind : bindParamsG (evalObj f) l env h.length params 0
        (h ++ [⟨some env, []⟩]) with
    | ok h₂ =>
      exact absurd hbind (bindParams_short l env h.length params hne 0 _
        (by omega) h₂)
    | fail r h₂ =>
      dsimp only
      intro hc
      have : r = Res.ok v := congrArg Prod.fst hc
      exact bindParams_fail_not_ok l env h.length params 0 _ r h₂ hbind v this
  · intro f name l env h p ps body hget hlen
    simp only [evalFunctionCall, evalFunctionCallG, hget]
    have hl1 : l[1]? = none := List.getElem?_eq_none (by omega)
    simp only [bindParamsG, hl1]

/-- Closed instance of `c2_arity_panic`: calling a one-parameter function
with no arguments aborts with the out-of-bounds panic. -/
theorem c2_arity_panic_witness :
    evalFunctionCall 3 "f" [Object.symbol "f"] 0
        [⟨none, [("f", Object.lambda ["x"] [Object.integer 1])]⟩] =
      (.abort "index out of bounds",
        [(⟨none, [("f", Object.lambda ["x"] [Object.integer 1])]⟩ : Frame)] ++
          [⟨some 0, []⟩]) :=
  c2_arity_panic.2 3 "f" [Object.symbol "f"] 0
    [⟨none, [("f", Object.lambda ["x"] [Object.integer 1])]⟩]
    "x" [] [Object.integer 1] rfl (by simp)

/-- C2 counterexample: `(f 1)` with `f` a two-parameter lambda aborts via
out-of-bounds indexing; the outcome is not an `Err` result, so no arity
error message is ever returned. -/
theorem c2_counterexample :
    (evalProgram "(begin (define f (lambda (x y) (+ x y))) (f 1))"
        100 0 initHeap).1 = .abort "index out of bounds" ∧
    ((evalProgram "(begin (define f (lambda (x y) (+ x y))) (f 1))"
        100 0 initHeap).1).isErr = false :=
  ⟨rfl, rfl⟩

/-- C10: keyword handlers read operands at fixed positions, so parsed
forms missing those operands abort via out-of-bounds indexing instead of
returning an error result: a `define` with no value operand, an `if`
whose condition is false and which has no alternate, and a `lambda` with
no body all panic, and none of them yields an `Err`. -/
theorem c10_missing_operands_panic :
    (evalProgram "(define x)" 100 0 initHeap).1 = .abort "index out of bounds" ∧
    ((evalProgram "(define x)" 100 0 initHeap).1).isErr = false ∧
    (evalProgram "(if (> 1 2) 5)" 100 0 initHeap).1 =
      .abort "index out of bounds" ∧
    ((evalProgram "(if (> 1 2) 5)" 100 0 initHeap).1).isErr = false ∧
    (evalProgram "(lambda (x))" 100 0 initHeap).1 =
      .abort "index out of bounds" ∧
    ((evalProgram "(lambda (x))" 100 0 initHeap).1).isErr = false :=
  ⟨rfl, rfl, rfl, rfl, rfl, rfl⟩

/-- C6 (amended): evaluating a ListData value aborts with the
`unimplemented!()` panic — an explicit unsupported outcome — but a bare
(non-called) Lambda is silently coerced: it evaluates to the substitute
value `Void` with no error of any kind. -/
theorem c6_placeholders :
    (∀ f (l : List Object) env h,
      evalObj (f + 1) (.listData l) env h = (.abort "unimplemented", h)) ∧
    (∀ f params body env h,
      evalObj (f + 1) (.lambda params body) env h = (.ok .void, h)) :=
  ⟨fun _ _ _ _ => rfl, fun _ _ _ _ _ => rfl⟩

/-- C6 counterexample: a bare Lambda occurrence does not surface any
unsupported-operation outcome — it quietly returns `Void`. -/
theorem c6_counterexample :
    evalObj 1 (Object.lambda ["x"] [Object.symbol "x"]) 0 initHeap =
      (.ok .void, initHeap) ∧
    ((evalObj 1 (Object.lambda ["x"] [Object.symbol "x"]) 0 initHeap).1).isErr
      = false :=
  ⟨rfl, rfl⟩

/-- C3: with both operands fully evaluated, `/` whose right operand is
exactly zero — Integer or Float, in all four operand combinations —
returns the fatal "Division by zero" `Err`; a division that does return a
value returns an Integer or a Float, and the model's numbers are exact
(`i64` as `Int`, `f64` as `Rat`), in which no infinity or NaN exists; the
four concrete zero-divisor programs all fail with the arithmetic error. -/
theorem c3_division_by_zero :
    (∀ f (a1 a2 : Object) env h lv rv h₁ h₂,
      evalObj f a1 env h = (.ok lv, h₁) →
      evalObj f a2 env h₁ = (.ok rv, h₂) →
      ((∃ n, lv = .integer n) ∨ (∃ q, lv = .float q)) →
      (rv = .integer 0 ∨ rv = .float 0) →
      evalBinaryOp f [.binaryOp "/", a1, a2] env h =
        (.err "Division by zero", h₂)) ∧
    (∀ f (a1 a2 : Object) env h v h',
      evalBinaryOp f [.binaryOp "/", a1, a2] env h = (.ok v, h') →
      (∃ n, v = .integer n) ∨ (∃ q, v = .float q)) ∧
    (evalProgram "(/ 5 0)" 100 0 initHeap).1 = .err "Division by zero" ∧
    (evalProgram "(/ 5.0 0.0)" 100 0 initHeap).1 = .err "Division by zero" ∧
    (evalProgram "(/ 5 0.0)" 100 0 initHeap).1 = .err "Division by zero" ∧
    (evalProgram "(/ 5.0 0)" 100 0 initHeap).1 = .err "Division by zero" := by
  refine ⟨?_, ?_, rfl, rfl, rfl, rfl⟩
  · intro f a1 a2 env h lv rv h₁ h₂ ha1 ha2 hlv hrv
    simp only [evalBinaryOp, evalBinaryOpG, ha1, ha2]
    rcases hlv with ⟨n, rfl⟩ | ⟨q, rfl⟩ <;> rcases hrv with rfl | rfl <;> rfl
  · intro f a1 a2 env h v h' hok
    simp only [evalBinaryOp, evalBinaryOpG] at hok
    rcases hev1 : evalObj f a1 env h with ⟨r1, hh₁⟩
    rw [hev1] at hok
    cases r1 with
    | ok left =>
      dsimp only at hok
      rcases hev2 : evalObj f a2 env hh₁ with ⟨r2, hh₂⟩
      rw [hev2] at hok
      cases r2 with
      | ok right =>
        dsimp only at hok
        have happ : applyBinary (.binaryOp "/") left right = .ok v :=
          congrArg Prod.fst hok
        unfold applyBinary at happ
        dsimp only at happ
        rw [if_neg (by decide), if_neg (by decide), if_neg (by decide),
          if_pos rfl] at happ
        cases left with
        | integer a =>
          cases right with
          | integer b =>
            dsimp only at happ
            by_cases hb : b = 0
            · rw [if_pos hb] at happ; cases happ
            · rw [if_neg hb] at happ
              cases happ
              exact Or.inl ⟨_, rfl⟩
          | float b =>
            dsimp only at happ
            by_cases hb : b = 0
            · rw [if_pos hb] at happ; cases happ
            · rw [if_neg hb] at happ
              cases happ
              exact Or.inr ⟨_, rfl⟩
          | void => cases happ
          | keyword s => cases happ
          | binaryOp s => cases happ
          | bool b => cases happ
          | str s => cases happ
          | symbol s => cases happ
          | listData ld => cases happ
          | lambda ps bd => cases happ
          | list ll => cases happ
        | float a =>
          cases right with
          | integer b =>
            dsimp only at happ
            by_cases hb : b = 0
            · rw [if_pos hb] at happ; cases happ
            · rw [if_neg hb] at happ
              cases happ
              exact Or.inr ⟨_, rfl⟩
          | float b =>
            dsimp only at happ
            by_cases hb : b = 0
            · rw [if_pos hb] at happ; cases happ
            · rw [if_neg hb] at happ
              cases happ
              exact Or.inr ⟨_, rfl⟩
          | void => cases happ
          | keyword s => cases happ
          | binaryOp s => cases happ
          | bool b => cases happ
          | str s => cases happ
          | symbol s => cases happ
          | listData ld => cases happ
          | lambda ps bd => cases happ
          | list ll => cases happ
        | void => cases right <;> cases happ
        | keyword s => cases right <;> cases happ
        | binaryOp s => cases right <;> cases happ
        | bool b => cases right <;> cases happ
        | str s => cases right <;> cases happ
        | symbol s => cases right <;> cases happ
        | listData ld => cases right <;> cases happ
        | lambda ps bd => cases right <;> cases happ
        | list ll => cases right <;> cases happ
      | err m => cases hok
      | abort m => cases hok
      | noFuel => cases hok
    | err m => cases hok
    | abort m => cases hok
    | noFuel => cases hok

/-- Closed instance of `c3_division_by_zero`: `(/ 7 0)` at the operand
level errs. -/
theorem c3_division_by_zero_witness :
    evalBinaryOp 1 [.binaryOp "/", .integer 7, .integer 0] 0 initHeap =
      (.err "Division by zero", initHeap) :=
  c3_division_by_zero.1 1 (.integer 7) (.integer 0) 0 initHeap
    (.integer 7) (.integer 0) initHeap initHeap rfl rfl
    (Or.inl ⟨7, rfl⟩) (Or.inl rfl)

/-- C4: an `if` whose condition evaluates to a non-Bool is a fatal type
error; when the condition yields a Bool only the selected branch is
evaluated — the result does not depend on the untaken branch at all — and
concretely a division by zero in the untaken branch does not prevent
success. -/
theorem c4_if_lazy :
    (∀ f (c t e : Object) env h v h₁,
      evalObj f c env h = (.ok v, h₁) → (∀ b, v ≠ .bool b) →
      evalIf f [.keyword "if", c, t, e] env h =
        (.err "Condition must be a boolean", h₁)) ∧
    (∀ f (c t e : Object) env h h₁,
      evalObj f c env h = (.ok (.bool true), h₁) →
      evalIf f [.keyword "if", c, t, e] env h = evalObj f t env h₁) ∧
    (∀ f (c t e : Object) env h h₁,
      evalObj f c env h = (.ok (.bool false), h₁) →
      evalIf f [.keyword "if", c, t, e] env h = evalObj f e env h₁) ∧
    (evalProgram "(if (< 1 2) 10 (/ 1 0))" 100 0 initHeap).1 =
      .ok (.integer 10) ∧
    (evalProgram "(if (> 1 2) (/ 1 0) 20)" 100 0 initHeap).1 =
      .ok (.integer 20) := by
  refine ⟨?_, ?_, ?_, rfl, rfl⟩
  · intro f c t e env h v h₁ hc hnb
    have hL : ([Object.keyword "if", c, t, e] : List Object)[1]? = some c := rfl
    simp only [evalIf, evalIfG, hL, hc]
  · intro f c t e env h h₁ hc
    have hL : ([Object.keyword "if", c, t, e] : List Object)[1]? = some c := rfl
    have hL2 : ([Object.keyword "if", c, t, e] : List Object)[2]? = some t := rfl
    simp only [evalIf, evalIfG, hL, hL2, hc, if_true]
  · intro f c t e env h h₁ hc
    have hL : ([Object.keyword "if", c, t, e] : List Object)[1]? = some c := rfl
    have hL3 : ([Object.keyword "if", c, t, e] : List Object)[3]? = some e := rfl
    simp only [evalIf, evalIfG, hL, hL3, hc, Bool.false_eq_true, if_false]

/-- Closed instance of `c4_if_lazy`: a true condition selects the
consequent even when the alternate is a division by zero. -/
theorem c4_if_lazy_witness :
    evalIf 2 [.keyword "if", .bool true, .integer 10,
        .list [.binaryOp "/", .integer 1, .integer 0]] 0 initHeap =
      evalObj 2 (.integer 10) 0 initHeap :=
  c4_if_lazy.2.1 2 (.bool true) (.integer 10)
    (.list [.binaryOp "/", .integer 1, .integer 0]) 0 initHeap initHeap rfl

/-- `Env::set` on an existing frame conses the binding onto the frame's
locals and preserves the heap's length. -/
theorem envSet_frame (h : Heap) (idx : Nat) (n : String) (v : Object)
    (fr : Frame) (hfr : h[idx]? = some fr) (hlt : idx < h.length) :
    (envSet h idx n v)[idx]? = some ⟨fr.parent, (n, v) :: fr.vars⟩ ∧
    (envSet h idx n v).length = h.length := by
  unfold envSet
  rw [hfr]
  exact ⟨List.getElem?_set_self hlt, List.length_set _ _ _⟩

/-- `Env::get` finds a binding present in the local frame without
consulting the parent chain. -/
theorem envGet_local (h : Heap) (idx : Nat) (fr : Frame)
    (hfr : h[idx]? = some fr) (n : String) (v : Object)
    (hv : varsGet fr.vars n = some v) :
    envGet h idx n = some v := by
  unfold envGet
  simp only [envGetAux, hfr, hv]

/-- C5: evaluating "(begin (define x 5) (define y 10) (+ x y))" against
any environment returns Integer 15, and afterwards the supplied
environment's local bindings contain x = 5 and y = 10.  In general
`begin` evaluates its items in order in the same environment returning
the last result — Void for an empty body — and `define` evaluates its
value operand, binds it in the current environment, and returns Void. -/
theorem c5_begin_define :
    (∀ f env h, env < h.length →
      ∃ h', evalProgram "(begin (define x 5) (define y 10) (+ x y))"
          (f + 4) env h = (.ok (.integer 15), h') ∧
        frameLookup h' env "x" = some (.integer 5) ∧
        frameLookup h' env "y" = some (.integer 10)) ∧
    (∀ ev env h, evalBeginG ev [.keyword "begin"] env h = (.ok .void, h)) ∧
    (∀ f s (ve v : Object) env h h₁,
      evalObj f ve env h = (.ok v, h₁) →
      evalDefine f [.keyword "define", .symbol s, ve] env h =
        (.ok .void, envSet h₁ env s v)) := by
  refine ⟨?_, fun _ _ _ => rfl, ?_⟩
  · intro f env h henv
    obtain ⟨fr, hfr⟩ : ∃ fr, h[env]? = some fr :=
      ⟨_, List.getElem?_eq_getElem henv⟩
    obtain ⟨hfr1, hlen1⟩ := envSet_frame h env "x" (.integer 5) fr hfr henv
    have henv1 : env < (envSet h env "x" (.integer 5)).length := by
      rw [hlen1]; exact henv
    obtain ⟨hfr2, hlen2⟩ := envSet_frame (envSet h env "x" (.integer 5)) env
      "y" (.integer 10) ⟨fr.parent, ("x", .integer 5) :: fr.vars⟩ hfr1 henv1
    have hgx : envGet (envSet (envSet h env "x" (.integer 5)) env "y"
        (.integer 10)) env "x" = some (.integer 5) :=
      envGet_local _ _ _ hfr2 _ _ rfl
    have hgy : envGet (envSet (envSet h env "x" (.integer 5)) env "y"
        (.integer 10)) env "y" = some (.integer 10) :=
      envGet_local _ _ _ hfr2 _ _ rfl
    have hevx : evalObj (f + 2) (.symbol "x") env
        (envSet (envSet h env "x" (.integer 5)) env "y" (.integer 10)) =
        (.ok (.integer 5),
          envSet (envSet h env "x" (.integer 5)) env "y" (.integer 10)) := by
      show evalSymbol "x" env _ = _
      unfold evalSymbol
      rw [hgx]
    have hevy : evalObj (f + 2) (.symbol "y") env
        (envSet (envSet h env "x" (.integer 5)) env "y" (.integer 10)) =
        (.ok (.integer 10),
          envSet (envSet h env "x" (.integer 5)) env "y" (.integer 10)) := by
      show evalSymbol "y" env _ = _
      unfold evalSymbol
      rw [hgy]
    have hsum : evalObj (f + 3)
        (.list [.binaryOp "+", .symbol "x", .symbol "y"]) env
        (envSet (envSet h env "x" (.integer 5)) env "y" (.integer 10)) =
        (.ok (.integer 15),
          envSet (envSet h env "x" (.integer 5)) env "y" (.integer 10)) := by
      show evalBinaryOpG (evalObj (f + 2))
        [.binaryOp "+", .symbol "x", .symbol "y"] env _ = _
      simp only [evalBinaryOpG, hevx, hevy]
      rfl
    refine ⟨envSet (envSet h env "x" (.integer 5)) env "y" (.integer 10),
      ?_, ?_, ?_⟩
    · calc evalProgram "(begin (define x 5) (define y 10) (+ x y))"
            (f + 4) env h
          = evalSeqFromG (evalObj (f + 3)) .void
              [.list [.binaryOp "+", .symbol "x", .symbol "y"]] env
              (envSet (envSet h env "x" (.integer 5)) env "y"
                (.integer 10)) := rfl
        _ = (.ok (.integer 15),
              envSet (envSet h env "x" (.integer 5)) env "y"
                (.integer 10)) := by
            simp only [evalSeqFromG, hsum]
    · simp only [frameLookup, hfr2]
      rfl
    · simp only [frameLookup, hfr2]
      rfl
  · intro f s ve v env h h₁ hev
    show evalDefineG (evalObj f) [.keyword "define", .symbol s, ve] env h = _
    have hL1 : ([Object.keyword "define", Object.symbol s, ve] :
        List Object)[1]? = some (.symbol s) := rfl
    have hL2 : ([Object.keyword "define", Object.symbol s, ve] :
        List Object)[2]? = some ve := rfl
    simp only [evalDefineG, hL1, hL2, hev]

/-- Closed instance of `c5_begin_define` at the root environment. -/
theorem c5_begin_define_witness :
    ∃ h', evalProgram "(begin (define x 5) (define y 10) (+ x y))"
        (96 + 4) 0 initHeap = (.ok (.integer 15), h') ∧
      frameLookup h' 0 "x" = some (.integer 5) ∧
      frameLookup h' 0 "y" = some (.integer 10) :=
  c5_begin_define.1 96 0 initHeap (by decide)

/-- The repository's own `test_simple_add` reproduced in the model. -/
theorem sanity_simple_add :
    (evalProgram "(+ 1 2)" 100 0 initHeap).1 = .ok (.integer 3) := rfl

/-- The repository's own `test_circle_area` reproduced in the model. -/
theorem sanity_circle_area :
    (evalProgram "(begin (define r 10) (define pi 314) (* pi (* r r)))"
      100 0 initHeap).1 = .ok (.integer 31400) := rfl

/-- The repository's own `test_srq_function` reproduced in the model. -/
theorem sanity_sqr :
    (evalProgram "(begin (define sqr (lambda (x) (* x x))) (sqr 10))"
      100 0 initHeap).1 = .ok (.integer 100) := rfl

/-- The spec's name-error and type-error examples reproduced in the model. -/
theorem sanity_call_errors :
    (evalProgram "(nosuch 1 2)" 100 0 initHeap).1 =
      .err "Undefined function: nosuch" ∧
    (evalProgram "(begin (define x 5) (x 1))" 100 0 initHeap).1 =
      .err "x is not a function" :=
  ⟨rfl, rfl⟩

end MrLisp
